import Mathlib

/-!
Verification development for the `deet` debugger core
(`src/proj-1/deet/src/inferior.rs` and its caller `src/proj-1/deet/src/debugger.rs`).

The Rust code is shallowly embedded:
machine integers (`usize`, `u64`) are `Nat` with explicit `% 2 ^ 64` bounds where
overflow matters, fallible operations return `Option`, the ptrace side effects are
explicit state passing over a simulation state `S`, and the results of `waitpid`
(events produced by the traced child) are an oracle list consumed by each wait.
-/

namespace Deet

/-- The Rust cast `(-(size_of::<usize>() as isize) as usize)` on x86-64: `-8` as a
twos-complement 64-bit quantity is `2 ^ 64 - 8`. -/
def NEG_WORD_SIZE : Nat := 2 ^ 64 - 8

/-- Embedding of `align_addr_to_word` (inferior.rs line 11):
`addr & (-(size_of::<usize>() as isize) as usize)`. -/
def align_addr_to_word (addr : Nat) : Nat := addr &&& NEG_WORD_SIZE

/-- Bitwise complement in 64 bits, i.e. Rust `!x` on `u64` (for `x < 2 ^ 64`). -/
def not64 (x : Nat) : Nat := (2 ^ 64 - 1) ^^^ x

/-- The byte extracted by `write_byte` (inferior.rs line 162):
`(word >> 8 * byte_offset) & 0xff`. -/
def wbOrig (word off : Nat) : Nat := (word >>> (8 * off)) &&& 0xff

/-- The word written back by `write_byte` (inferior.rs lines 163-164):
`(word & !(0xff << 8 * byte_offset)) | ((val as u64) << 8 * byte_offset)`. -/
def wbUpdated (word off v : Nat) : Nat :=
  (word &&& not64 (0xff <<< (8 * off))) ||| (v <<< (8 * off))

/-- The alignment formula of the spec (spec section 4.3):
`aligned_address = address & ~(word_size - 1)` with `word_size = 8`. -/
def specAlignedAddress (addr : Nat) : Nat := addr &&& not64 (8 - 1)

/-- Byte number `j` (little-endian) of a word. Same formula as `wbOrig`. -/
def byteAt (word j : Nat) : Nat := wbOrig word j

-- ### Bit-level lemmas about the `write_byte` arithmetic core

theorem and_two_pow_sub_one_eq_mod (n k : Nat) : n &&& (2 ^ k - 1) = n % 2 ^ k := by
  apply Nat.eq_of_testBit_eq
  intro i
  rw [Nat.testBit_land, Nat.testBit_two_pow_sub_one, Nat.testBit_mod_two_pow]
  cases h : n.testBit i <;> simp [h]

theorem wbOrig_eq_mod (word off : Nat) : wbOrig word off = (word >>> (8 * off)) % 256 := by
  have h : (0xff : Nat) = 2 ^ 8 - 1 := by norm_num
  rw [wbOrig, h, and_two_pow_sub_one_eq_mod]
  norm_num

theorem wbOrig_lt (word off : Nat) : wbOrig word off < 256 := by
  rw [wbOrig_eq_mod]
  exact Nat.mod_lt _ (by norm_num)

theorem testBit_not64 (x i : Nat) (hx : x < 2 ^ 64) :
    (not64 x).testBit i = (decide (i < 64) && !(x.testBit i)) := by
  rw [not64, Nat.testBit_xor, Nat.testBit_two_pow_sub_one]
  by_cases h : i < 64
  · simp [h]
  · have hxi : x.testBit i = false :=
      Nat.testBit_eq_false_of_lt (lt_of_lt_of_le hx (Nat.pow_le_pow_right (by norm_num) (by omega)))
    simp [h, hxi]

theorem testBit_byte_mask (k i : Nat) :
    ((0xff : Nat) <<< (8 * k)).testBit i = (decide (8 * k ≤ i) && decide (i < 8 * k + 8)) := by
  rw [Nat.testBit_shiftLeft]
  have h8 : (0xff : Nat) = 2 ^ 8 - 1 := by norm_num
  rw [h8, Nat.testBit_two_pow_sub_one]
  by_cases h : 8 * k ≤ i
  · have e1 : decide (i ≥ 8 * k) = true := decide_eq_true h
    have e2 : decide (i - 8 * k < 8) = decide (i < 8 * k + 8) := decide_eq_decide.mpr (by omega)
    rw [e1, e2]
  · have e1 : decide (i ≥ 8 * k) = false := decide_eq_false h
    rw [e1, Bool.false_and, Bool.false_and]

theorem byte_mask_lt (k : Nat) (hk : k < 8) : (0xff : Nat) <<< (8 * k) < 2 ^ 64 := by
  rw [Nat.shiftLeft_eq]
  calc (0xff : Nat) * 2 ^ (8 * k) ≤ 255 * 2 ^ 56 :=
        Nat.mul_le_mul (by norm_num) (Nat.pow_le_pow_right (by norm_num) (by omega))
    _ < 2 ^ 64 := by norm_num

theorem testBit_of_lt_256 (v j : Nat) (hv : v < 256) (hj : 8 ≤ j) : v.testBit j = false :=
  Nat.testBit_eq_false_of_lt
    (lt_of_lt_of_le hv (le_trans (by norm_num) (Nat.pow_le_pow_right (by norm_num) hj)))

/-- Characterisation of a single bit of the word produced by `write_byte`:
inside the targeted byte it is the corresponding bit of the new value, outside it
(but below bit 64) it is the corresponding bit of the old word. -/
theorem testBit_wbUpdated (word k v i : Nat) (hk : k < 8) (hv : v < 256) :
    (wbUpdated word k v).testBit i =
      if 8 * k ≤ i ∧ i < 8 * k + 8 then v.testBit (i - 8 * k)
      else (decide (i < 64) && word.testBit i) := by
  rw [wbUpdated, Nat.testBit_lor, Nat.testBit_land,
    testBit_not64 _ _ (byte_mask_lt k hk), testBit_byte_mask, Nat.testBit_shiftLeft]
  by_cases hin : 8 * k ≤ i ∧ i < 8 * k + 8
  · have h64 : i < 64 := by omega
    simp [hin.1, hin.2, h64, ge_iff_le]
  · rw [if_neg hin]
    by_cases hlo : i < 8 * k
    · simp [show ¬ (8 * k ≤ i) from by omega, show ¬ (i ≥ 8 * k) from by omega,
        Bool.and_comm]
    · have hhi : 8 * k + 8 ≤ i := by omega
      have hvb : v.testBit (i - 8 * k) = false := testBit_of_lt_256 v _ hv (by omega)
      simp [show 8 * k ≤ i from by omega, show ¬ (i < 8 * k + 8) from by omega,
        ge_iff_le, hvb, Bool.and_comm]

theorem testBit_of_lt_two_pow_64 (w i : Nat) (hw : w < 2 ^ 64) (hi : 64 ≤ i) :
    w.testBit i = false :=
  Nat.testBit_eq_false_of_lt (lt_of_lt_of_le hw (Nat.pow_le_pow_right (by norm_num) hi))

theorem wbUpdated_lt (word k v : Nat) (hw : word < 2 ^ 64) (hk : k < 8) (hv : v < 256) :
    wbUpdated word k v < 2 ^ 64 := by
  have h1 : word &&& not64 (0xff <<< (8 * k)) < 2 ^ 64 := lt_of_le_of_lt Nat.and_le_left hw
  have h2 : v <<< (8 * k) < 2 ^ 64 := by
    rw [Nat.shiftLeft_eq]
    calc v * 2 ^ (8 * k) ≤ 255 * 2 ^ 56 :=
          Nat.mul_le_mul (by omega) (Nat.pow_le_pow_right (by norm_num) (by omega))
      _ < 2 ^ 64 := by norm_num
  exact Nat.bitwise_lt h1 h2

/-- Extracting the targeted byte back out of the updated word returns the value written. -/
theorem wbOrig_wbUpdated (word k v : Nat) (hk : k < 8) (hv : v < 256) :
    wbOrig (wbUpdated word k v) k = v := by
  apply Nat.eq_of_testBit_eq
  intro j
  rw [wbOrig, Nat.testBit_land, Nat.testBit_shiftRight,
    testBit_wbUpdated word k v _ hk hv]
  by_cases hj : j < 8
  · rw [if_pos (by omega)]
    have h8 : (0xff : Nat) = 2 ^ 8 - 1 := by norm_num
    rw [h8, Nat.testBit_two_pow_sub_one]
    simp [hj, show 8 * k + j - 8 * k = j from by omega]
  · have hvb : v.testBit j = false := testBit_of_lt_256 v j hv (by omega)
    have h8 : (0xff : Nat) = 2 ^ 8 - 1 := by norm_num
    rw [if_neg (by omega), h8, Nat.testBit_two_pow_sub_one]
    simp [hj, hvb]

/-- Bytes other than the targeted one are unchanged by the update. -/
theorem wbOrig_wbUpdated_other (word k v j : Nat) (hw : word < 2 ^ 64) (hk : k < 8)
    (hv : v < 256) (hj : j < 8) (hne : j ≠ k) :
    wbOrig (wbUpdated word k v) j = wbOrig word j := by
  apply Nat.eq_of_testBit_eq
  intro m
  rw [wbOrig, wbOrig, Nat.testBit_land, Nat.testBit_land, Nat.testBit_shiftRight,
    Nat.testBit_shiftRight, testBit_wbUpdated word k v _ hk hv]
  by_cases hm : m < 8
  · rw [if_neg (by omega)]
    by_cases h64 : 8 * j + m < 64
    · simp [h64]
    · have : word.testBit (8 * j + m) = false := testBit_of_lt_two_pow_64 _ _ hw (by omega)
      simp [this, show ¬ (8 * j + m < 64) from h64]
  · have h8 : (0xff : Nat) = 2 ^ 8 - 1 := by norm_num
    rw [h8, Nat.testBit_two_pow_sub_one]
    simp [hm]

/-- Install-then-restore round trip at the word level: writing value `v` into byte `k`
and then writing the extracted original byte back reproduces the original word. -/
theorem wb_roundtrip (word k v : Nat) (hw : word < 2 ^ 64) (hk : k < 8) (hv : v < 256) :
    wbUpdated (wbUpdated word k v) k (wbOrig word k) = word := by
  apply Nat.eq_of_testBit_eq
  intro i
  rw [testBit_wbUpdated _ k _ i hk (wbOrig_lt word k)]
  by_cases hin : 8 * k ≤ i ∧ i < 8 * k + 8
  · rw [if_pos hin, wbOrig, Nat.testBit_land, Nat.testBit_shiftRight]
    have h8 : (0xff : Nat) = 2 ^ 8 - 1 := by norm_num
    rw [h8, Nat.testBit_two_pow_sub_one]
    simp [show i - 8 * k < 8 from by omega, show 8 * k + (i - 8 * k) = i from by omega]
  · rw [if_neg hin, testBit_wbUpdated _ k _ i hk hv, if_neg hin]
    by_cases h64 : i < 64
    · simp [h64]
    · have : word.testBit i = false := testBit_of_lt_two_pow_64 _ _ hw (by omega)
      simp [h64, this]

-- ### Alignment lemmas

theorem align_addr_to_word_eq (addr : Nat) (ha : addr < 2 ^ 64) :
    align_addr_to_word addr = 8 * (addr / 8) := by
  apply Nat.eq_of_testBit_eq
  intro i
  have hmask : NEG_WORD_SIZE = (2 ^ 61 - 1) <<< 3 := by decide
  have h8 : (8 : Nat) * (addr / 8) = (addr >>> 3) <<< 3 := by
    rw [Nat.shiftLeft_eq, Nat.shiftRight_eq_div_pow]
    norm_num [Nat.mul_comm]
  rw [align_addr_to_word, hmask, h8, Nat.testBit_land, Nat.testBit_shiftLeft,
    Nat.testBit_shiftLeft, Nat.testBit_two_pow_sub_one]
  by_cases h3 : 3 ≤ i
  · rw [Nat.testBit_shiftRight]
    by_cases h64 : i < 64
    · simp [ge_iff_le, h3, show i - 3 < 61 from by omega, show 3 + (i - 3) = i from by omega]
    · have : addr.testBit i = false := testBit_of_lt_two_pow_64 _ _ ha (by omega)
      simp [ge_iff_le, h3, show ¬ (i - 3 < 61) from by omega,
        show 3 + (i - 3) = i from by omega, this]
  · simp [ge_iff_le, h3]

theorem align_addr_le (addr : Nat) (ha : addr < 2 ^ 64) : align_addr_to_word addr ≤ addr := by
  rw [align_addr_to_word_eq addr ha]
  exact Nat.mul_div_le addr 8

theorem byte_offset_eq (addr : Nat) (ha : addr < 2 ^ 64) :
    addr - align_addr_to_word addr = addr % 8 := by
  rw [align_addr_to_word_eq addr ha]
  omega

theorem byte_offset_lt (addr : Nat) (ha : addr < 2 ^ 64) :
    addr - align_addr_to_word addr < 8 := by
  rw [byte_offset_eq addr ha]
  exact Nat.mod_lt _ (by norm_num)

/-- The alignment computation of the source coincides with the formula
`address & ~(word_size - 1)` of the spec. -/
theorem align_addr_to_word_eq_spec (addr : Nat) :
    align_addr_to_word addr = specAlignedAddress addr := by
  have h : NEG_WORD_SIZE = not64 (8 - 1) := by decide
  rw [align_addr_to_word, specAlignedAddress, h]

-- ### The simulation state and the embedded operations

/-- The tracee registers the debugger reads and writes (`ptrace::getregs` gives a full
`user_regs_struct`; only `rip` and `rbp` are used by the source). -/
structure Regs where
  rip : Nat
  rbp : Nat
deriving DecidableEq, Repr

/-- Embedding of `enum Status` (inferior.rs lines 15-26). Signals are numbers. -/
inductive Status where
  | stopped (signal : Nat) (rip : Nat)
  | exited (code : Int)
  | signaled (signal : Nat)
deriving DecidableEq, Repr

/-- The shape of a raw `waitpid` result, as matched by `Inferior::wait`
(inferior.rs lines 120-128). `other` stands for every `WaitStatus` variant outside
the three handled ones. -/
inductive RawWait where
  | stopped (signal : Nat)
  | exited (code : Int)
  | signaled (signal : Nat) (core : Bool)
  | other
deriving DecidableEq, Repr

/-- Outcome of a fallible debugger operation: a returned value, a returned
`Err(nix::Error)`, or a Rust panic (`expect` / `unwrap` / `panic!`). -/
inductive WaitRes where
  | ok (st : Status)
  | err
  | panicked
deriving DecidableEq, Repr

/-- Simulation state: the world the ptrace calls act on, plus the own
`bps` map of the `Inferior` and counters of issued `ptrace::step` / `ptrace::cont` commands.
`mem a` is the 64-bit word `ptrace::read` returns at address `a` (`none` means the
read faults); writes target the aligned word `write_byte` computed.
`waits` is the oracle stream of `waitpid` results, each paired with the registers the
tracee has when that event is delivered (used by `getregs` on a stop). -/
structure S where
  mem : Nat → Option Nat
  regs : Regs
  waits : List (RawWait × Regs)
  bps : Nat → Option (Option Nat)
  stepCount : Nat
  contCount : Nat

/-- Embedding of `Inferior::wait` (inferior.rs lines 119-129) given a raw wait result
and the result of the `ptrace::getregs` query it performs in the stopped case. -/
def inferiorWait (raw : RawWait) (getregs : Option Regs) : WaitRes :=
  match raw with
  | .exited c => .ok (.exited c)
  | .signaled sig _ => .ok (.signaled sig)
  | .stopped sig =>
      match getregs with
      | some r => .ok (.stopped sig r.rip)
      | none => .err
  | .other => .panicked

/-- A `self.wait(None)` call inside the simulation: consume the next oracle event.
An empty oracle models a failing `waitpid` (returned as `Err`). On a stop the
registers of the tracee become the ones delivered with the event. -/
def simWait (s : S) : WaitRes × S :=
  match s.waits with
  | [] => (.err, s)
  | (w, r) :: rest =>
      (inferiorWait w (some r),
       { s with waits := rest,
                regs := match w with
                        | .stopped _ => r
                        | _ => s.regs })

/-- Embedding of `Inferior::write_byte` (inferior.rs lines 158-173): read the word
containing `addr`, return the byte at the offset, write back the word with that byte
replaced by `val`. `none` models the `Err` the function returns when the ptrace
read (or write) faults. -/
def simWriteByte (s : S) (addr val : Nat) : Option (Nat × S) :=
  let aligned := align_addr_to_word addr
  let off := addr - aligned
  match s.mem aligned with
  | none => none
  | some word =>
      some (wbOrig word off,
            { s with mem := fun x =>
                if x = aligned then some (wbUpdated word off val) else s.mem x })

/-- The byte currently stored at `addr`, read through the containing word. -/
def readMemByte (s : S) (addr : Nat) : Option Nat :=
  match s.mem (align_addr_to_word addr) with
  | none => none
  | some w => some (wbOrig w (addr - align_addr_to_word addr))

/-- The `HashMap::insert` operation on the embedded breakpoint map. -/
def bpsInsert (m : Nat → Option (Option Nat)) (a : Nat) (v : Option Nat) :
    Nat → Option (Option Nat) :=
  fun k => if k = a then some v else m k

/-- One iteration of the breakpoint-installation loops (inferior.rs lines 60-65 and
78-83): `write_byte(bp, 0xcc).expect(...)` then `bps.insert(bp, Some(orig))`.
`none` models the panic the `expect` raises when `write_byte` fails. -/
def installBp (s : S) (a : Nat) : Option S :=
  match simWriteByte s a 0xcc with
  | none => none
  | some (orig, s1) => some { s1 with bps := bpsInsert s1.bps a (some orig) }

/-- The whole installation loop over a breakpoint list. -/
def installLoop (s : S) : List Nat → Option S
  | [] => some s
  | a :: rest =>
      match installBp s a with
      | none => none
      | some s1 => installLoop s1 rest

/-- A `ptrace::cont` followed by `self.wait(None)` (inferior.rs lines 108-109). -/
def simCont (s : S) : WaitRes × S :=
  simWait { s with contCount := s.contCount + 1 }

/-- The tail of the step-over sequence of `wake_and_wait` (inferior.rs lines 99-109):
`self.wait(None).unwrap()` on the single-step result, the re-arming of the trap byte
on a stop (its result discarded, line 103), and the final continue-and-wait. `a` is
the breakpoint address `instruction_ptr - 1` and `s4` the state right after the
single step was issued. -/
def stepOverTail (a : Nat) (s4 : S) : WaitRes × S :=
  match simWait s4 with
  | (.ok (.exited c), s5) => (.ok (.exited c), s5)
  | (.ok (.signaled g), s5) => (.ok (.signaled g), s5)
  | (.ok (.stopped _ _), s5) =>
      let s6 := match simWriteByte s5 a 0xcc with
                | none => s5
                | some (_, t) => t
      simCont s6
  | (.err, s5) => (.panicked, s5)
  | (.panicked, s5) => (.panicked, s5)

/-- Embedding of `Inferior::wake_and_wait` (inferior.rs lines 76-110).
Register operations (`getregs`, `setregs`, `step`, `cont`) are assumed to succeed:
the inferior is live. `instruction_ptr - 1` underflowing at `rip = 0` is the
debug-profile panic of the Rust subtraction. The result of the restoring
`write_byte` (line 92) is discarded by the source, so a failure there is ignored. -/
def wakeAndWait (s : S) (breakpoints : List Nat) : WaitRes × S :=
  match installLoop s breakpoints with
  | none => (.panicked, s)
  | some s1 =>
      let ip := s1.regs.rip
      if ip = 0 then (.panicked, s1)
      else
        match s1.bps (ip - 1) with
        | some (some origByte) =>
            let s2 := match simWriteByte s1 (ip - 1) origByte with
                      | none => s1
                      | some (_, t) => t
            let s3 := { s2 with regs := { s2.regs with rip := ip - 1 } }
            let s4 := { s3 with stepCount := s3.stepCount + 1 }
            stepOverTail (ip - 1) s4
        | _ => simCont s1

/-- Outcome of `Inferior::new`. -/
inductive NewRes where
  | ok (s : S)
  | noInferior
  | panicked

/-- Embedding of `Inferior::new` (inferior.rs lines 45-73). The spawned command is
configured with `pre_exec(child_traceme)`, so the world `s0` a successful spawn
creates has the initial trap-stop of the traced child as the head of its wait
oracle when the launch goes as expected. `spawnOk = false` models `cmd.spawn()`
returning `Err`. An empty oracle models `waitpid` failing (`.ok()?` gives `None`).
The fresh inferior starts with an empty `bps` map and then installs every requested
breakpoint, panicking (via `expect`) if a patch fails. -/
def inferiorNew (spawnOk : Bool) (s0 : S) (breakpoints : List Nat) : NewRes :=
  if spawnOk then
    match s0.waits with
    | [] => .noInferior
    | (w, r) :: rest =>
        match w with
        | .stopped _ =>
            let s1 := { s0 with waits := rest, regs := r, bps := fun _ => none }
            match installLoop s1 breakpoints with
            | none => .panicked
            | some s2 => .ok s2
        | _ => .noInferior
  else .noInferior

/-- Modelled from the spec: `Inferior::set_breakpoint`, the method
`debugger.rs` line 106 calls to install a breakpoint into an already-running
inferior. Its body is absent from `src/proj-1/deet/src/inferior.rs`; per spec
sections 2.4 and 4.2 installing a breakpoint into a live inferior patches the
one-byte trap instruction and records the returned original byte in the table,
surfacing a memory-access failure as a recoverable error (`none`). -/
def set_breakpoint (s : S) (a : Nat) : Option S :=
  match simWriteByte s a 0xcc with
  | none => none
  | some (orig, s1) => some { s1 with bps := bpsInsert s1.bps a (some orig) }

-- ### Backtrace (inferior.rs lines 136-156)

/-- Result of a backtrace walk, carrying the frames printed before it ended.
`fuelOut` is the modelling artifact for a walk still running after the given
number of iterations (the source loop has no iteration bound of its own). -/
inductive BtRes where
  | ok (frames : List (String × Nat))
  | errAfter (frames : List (String × Nat))
  | panicked (frames : List (String × Nat))
  | fuelOut (frames : List (String × Nat))
deriving DecidableEq, Repr

/-- Embedding of the loop of `Inferior::print_backtrace` (inferior.rs lines 141-153),
iteration-indexed. `gl` and `gf` are `DwarfData::get_line_from_addr` and
`get_function_from_addr`; a `none` from either hits the `.unwrap()` of the source and
panics. Frame reads go through `mem`; a faulting read is the `?` that aborts the
walk with `Err`. A frame is emitted (printed) before the `main` check. -/
def backtraceGo (gl : Nat → Option Nat) (gf : Nat → Option String)
    (mem : Nat → Option Nat) :
    Nat → Nat → Nat → List (String × Nat) → BtRes
  | 0, _, _, acc => .fuelOut acc
  | fuel + 1, ip, bp, acc =>
      match gl ip with
      | none => .panicked acc
      | some line =>
          match gf ip with
          | none => .panicked acc
          | some fn =>
              let acc2 := acc ++ [(fn, line)]
              if fn = "main" then .ok acc2
              else
                match mem (bp + 8) with
                | none => .errAfter acc2
                | some ip2 =>
                    match mem bp with
                    | none => .errAfter acc2
                    | some bp2 => backtraceGo gl gf mem fuel ip2 bp2 acc2

/-- The walk of `Inferior::print_backtrace` run for at most `fuel` iterations,
starting from the
current `rip` and `rbp` of the stopped inferior. -/
def printBacktrace (gl : Nat → Option Nat) (gf : Nat → Option String) (s : S)
    (fuel : Nat) : BtRes :=
  backtraceGo gl gf s.mem fuel s.regs.rip s.regs.rbp []

/-- The walk from `(ip, bp)` never finishes, whatever iteration budget it gets. -/
def btDiverges (gl : Nat → Option Nat) (gf : Nat → Option String)
    (mem : Nat → Option Nat) (ip bp : Nat) : Prop :=
  ∀ fuel acc, ∃ acc2, backtraceGo gl gf mem fuel ip bp acc = .fuelOut acc2

-- ### Helper lemmas about the state operations

theorem simWriteByte_eq (s : S) (a v w : Nat) (hm : s.mem (align_addr_to_word a) = some w) :
    simWriteByte s a v =
      some (wbOrig w (a - align_addr_to_word a),
            { s with mem := fun x =>
                if x = align_addr_to_word a then
                  some (wbUpdated w (a - align_addr_to_word a) v)
                else s.mem x }) := by
  simp only [simWriteByte, hm]

theorem simWriteByte_inv (s s1 : S) (a v o w : Nat)
    (hm : s.mem (align_addr_to_word a) = some w)
    (h : simWriteByte s a v = some (o, s1)) :
    o = wbOrig w (a - align_addr_to_word a) ∧
    s1 = { s with mem := fun x =>
             if x = align_addr_to_word a then
               some (wbUpdated w (a - align_addr_to_word a) v)
             else s.mem x } := by
  rw [simWriteByte_eq s a v w hm] at h
  exact ⟨(Prod.mk.injEq _ _ _ _ ▸ Option.some.inj h).1.symm,
         (Prod.mk.injEq _ _ _ _ ▸ Option.some.inj h).2.symm⟩

theorem simWriteByte_fields (s s1 : S) (a v o : Nat)
    (h : simWriteByte s a v = some (o, s1)) :
    s1.regs = s.regs ∧ s1.waits = s.waits ∧ s1.bps = s.bps ∧
    s1.stepCount = s.stepCount ∧ s1.contCount = s.contCount := by
  simp only [simWriteByte] at h
  cases hmem : s.mem (align_addr_to_word a) with
  | none => rw [hmem] at h; exact absurd h (by simp)
  | some w =>
      rw [hmem] at h
      obtain ⟨-, hs⟩ := Prod.mk.injEq _ _ _ _ ▸ Option.some.inj h
      rw [← hs]
      exact ⟨rfl, rfl, rfl, rfl, rfl⟩

theorem installBp_fields (s s1 : S) (a : Nat) (h : installBp s a = some s1) :
    s1.regs = s.regs ∧ s1.waits = s.waits ∧
    s1.stepCount = s.stepCount ∧ s1.contCount = s.contCount := by
  simp only [installBp] at h
  cases hsw : simWriteByte s a 0xcc with
  | none => rw [hsw] at h; exact absurd h (by simp)
  | some p =>
      obtain ⟨o, t⟩ := p
      rw [hsw] at h
      have ht := simWriteByte_fields s t a 0xcc o hsw
      have hs1 : s1 = { t with bps := bpsInsert t.bps a (some o) } := (Option.some.inj h).symm
      rw [hs1]
      exact ⟨ht.1, ht.2.1, ht.2.2.2.1, ht.2.2.2.2⟩

theorem installLoop_fields (l : List Nat) : ∀ s s1 : S, installLoop s l = some s1 →
    s1.regs = s.regs ∧ s1.waits = s.waits ∧
    s1.stepCount = s.stepCount ∧ s1.contCount = s.contCount := by
  induction l with
  | nil =>
      intro s s1 h
      simp only [installLoop] at h
      rw [Option.some.inj h]
      exact ⟨rfl, rfl, rfl, rfl⟩
  | cons a rest ih =>
      intro s s1 h
      simp only [installLoop] at h
      cases hbp : installBp s a with
      | none => rw [hbp] at h; exact absurd h (by simp)
      | some t =>
          rw [hbp] at h
          have h1 := installBp_fields s t a hbp
          have h2 := ih t s1 h
          exact ⟨h2.1.trans h1.1, h2.2.1.trans h1.2.1,
                 h2.2.2.1.trans h1.2.2.1, h2.2.2.2.trans h1.2.2.2⟩

theorem simWriteByte_none (s : S) (a v : Nat)
    (hm : s.mem (align_addr_to_word a) = none) : simWriteByte s a v = none := by
  simp only [simWriteByte, hm]

-- ### C6: install followed by immediate restore is the identity on memory

/-- C6: for every address `a`, byte value `v < 256` and mapped word `w` containing
`a`, performing `write_byte(a, v)` and then `write_byte(a, b)` with `b` the original
byte returned by the first call leaves every memory word identical to the initial
state: install followed by immediate restore is the identity on memory. -/
theorem claim_C6_patch_restore_identity (s s1 s2 : S) (a v w o o2 : Nat)
    (ha : a < 2 ^ 64) (hw : w < 2 ^ 64) (hv : v < 256)
    (hm : s.mem (align_addr_to_word a) = some w)
    (h1 : simWriteByte s a v = some (o, s1))
    (h2 : simWriteByte s1 a o = some (o2, s2)) :
    ∀ x, s2.mem x = s.mem x := by
  obtain ⟨ho, hs1⟩ := simWriteByte_inv s s1 a v o w hm h1
  have hk : a - align_addr_to_word a < 8 := byte_offset_lt a ha
  have hm1 : s1.mem (align_addr_to_word a) =
      some (wbUpdated w (a - align_addr_to_word a) v) := by
    rw [hs1]; simp
  obtain ⟨_, hs2⟩ := simWriteByte_inv s1 s2 a o o2 _ hm1 h2
  intro x
  rw [hs2, hs1]
  by_cases hx : x = align_addr_to_word a
  · subst hx
    simp [ho, wb_roundtrip w _ v hw hk hv, hm]
  · simp only [if_neg hx]

/-- A memory mapping a single word. -/
def oneWordMem (a w : Nat) : Nat → Option Nat := fun y => if y = a then some w else none

/-- A quiescent simulation state over a given memory, register file, wait oracle and
breakpoint map. -/
def mkS (m : Nat → Option Nat) (r : Regs) (ws : List (RawWait × Regs))
    (b : Nat → Option (Option Nat)) : S :=
  { mem := m, regs := r, waits := ws, bps := b, stepCount := 0, contCount := 0 }

/-- Concrete states of the C6 witness run: the initial word `0xab`, the patched word
`0xcc`, and the restored word. -/
def c6s0 : S := mkS (oneWordMem 4096 0xab) ⟨0, 0⟩ [] (fun _ => none)

def c6s1 : S := { c6s0 with mem := fun y => if y = 4096 then some 0xcc else c6s0.mem y }

def c6s2 : S := { c6s1 with mem := fun y => if y = 4096 then some 0xab else c6s1.mem y }

/-- Closed witness for C6: a concrete two-write run on a one-word memory restores the
original word. -/
theorem claim_C6_patch_restore_identity_witness : c6s2.mem 4096 = c6s0.mem 4096 :=
  claim_C6_patch_restore_identity c6s0 c6s1 c6s2 4096 0xcc 0xab 0xab 0xcc
    (by norm_num) (by norm_num) (by norm_num) rfl rfl rfl 4096

-- ### C7: word-aligned read-modify-write semantics of write_byte

/-- C7: `write_byte(a, v)` aligns to `a & ~(word_size - 1)`, reads the word there,
returns the byte of that word at little-endian offset `a - aligned`, and writes back
the word with only that byte replaced by `v`: the replaced byte now reads `v` and
every other byte of the containing word, and every other word, is unchanged. -/
theorem claim_C7_write_byte_semantics (s : S) (a v w : Nat)
    (ha : a < 2 ^ 64) (hw : w < 2 ^ 64) (hv : v < 256)
    (hm : s.mem (align_addr_to_word a) = some w) :
    align_addr_to_word a = a &&& not64 (8 - 1) ∧
    ∃ s1, simWriteByte s a v = some (byteAt w (a - align_addr_to_word a), s1) ∧
      s1.mem (align_addr_to_word a) =
        some (wbUpdated w (a - align_addr_to_word a) v) ∧
      byteAt (wbUpdated w (a - align_addr_to_word a) v) (a - align_addr_to_word a) = v ∧
      (∀ j, j < 8 → j ≠ a - align_addr_to_word a →
        byteAt (wbUpdated w (a - align_addr_to_word a) v) j = byteAt w j) ∧
      (∀ x, x ≠ align_addr_to_word a → s1.mem x = s.mem x) := by
  have hk : a - align_addr_to_word a < 8 := byte_offset_lt a ha
  refine ⟨align_addr_to_word_eq_spec a, _, simWriteByte_eq s a v w hm, ?_, ?_, ?_, ?_⟩
  · simp
  · exact wbOrig_wbUpdated w _ v hk hv
  · intro j hj hjk
    exact wbOrig_wbUpdated_other w _ v j hw hk hv hj hjk
  · intro x hx
    simp [if_neg hx]

/-- Closed witness for C7 at a concrete state, address and value: the unaligned
address `4097` targets byte 1 of the word at `4096`; the returned byte and the
neighbouring byte 0 are checked. -/
theorem claim_C7_write_byte_semantics_witness :
    align_addr_to_word 4097 = 4097 &&& not64 (8 - 1) ∧
    byteAt (wbUpdated 0x1122 (4097 - align_addr_to_word 4097) 0xcc)
      (4097 - align_addr_to_word 4097) = 0xcc ∧
    byteAt (wbUpdated 0x1122 (4097 - align_addr_to_word 4097) 0xcc) 0 =
      byteAt 0x1122 0 := by
  have h := claim_C7_write_byte_semantics (mkS (oneWordMem 4096 0x1122) ⟨0, 0⟩ []
    (fun _ => none)) 4097 0xcc 0x1122 (by norm_num) (by norm_num) (by norm_num) rfl
  obtain ⟨hspec, s1, _, _, hbyte, hother, _⟩ := h
  exact ⟨hspec, hbyte, hother 0 (by norm_num) (by decide)⟩

-- ### C8: the status interpreter

/-- C8: `Inferior::wait` maps an exit to `Exited(code)`, a signal death to
`Signaled(signal)` and a stop to `Stopped(signal, rip)` with registers taken from the
stopped-case `getregs` query; the register query result is irrelevant (never consumed)
for any non-stop shape; and any other wait-result shape is a panic (fatal internal
error). -/
theorem claim_C8_status_interpreter :
    (∀ g c, inferiorWait (RawWait.exited c) g = WaitRes.ok (Status.exited c)) ∧
    (∀ g sig core, inferiorWait (RawWait.signaled sig core) g =
      WaitRes.ok (Status.signaled sig)) ∧
    (∀ sig r, inferiorWait (RawWait.stopped sig) (some r) =
      WaitRes.ok (Status.stopped sig r.rip)) ∧
    (∀ g, inferiorWait RawWait.other g = WaitRes.panicked) ∧
    (∀ w g g', (∀ sig, w ≠ RawWait.stopped sig) →
      inferiorWait w g = inferiorWait w g') := by
  refine ⟨fun g c => rfl, fun g sig core => rfl, fun sig r => rfl, fun g => rfl, ?_⟩
  intro w g g' hne
  cases w with
  | stopped sig => exact absurd rfl (hne sig)
  | exited c => rfl
  | signaled sig core => rfl
  | other => rfl

/-- Closed witness for C8: concrete instances of each conjunct, with the
non-stop-independence hypothesis discharged at `RawWait.other`. -/
theorem claim_C8_status_interpreter_witness :
    inferiorWait (RawWait.exited 0) none = WaitRes.ok (Status.exited 0) ∧
    inferiorWait RawWait.other none = inferiorWait RawWait.other (some ⟨3, 4⟩) :=
  ⟨claim_C8_status_interpreter.1 none 0,
   claim_C8_status_interpreter.2.2.2.2 RawWait.other none (some ⟨3, 4⟩)
     (fun _ h => RawWait.noConfusion h)⟩

-- ### C1: the breakpoint step-over protocol of wake_and_wait

/-- C1: on resume with a live inferior (state `s1` after the initial re-installation
loop), if `rip - 1` is a key of the breakpoint table holding a saved byte `Some b`,
the controller restores `b` at that address, rewinds the instruction pointer by one
byte, issues exactly one single step and consumes exactly one wait; if that wait
yields an exit or a signal death, that status is returned at once with the trap not
re-armed (the byte at the breakpoint still reads `b`) and no continue issued; if it
yields a stop, the trap byte `0xcc` is re-patched at the breakpoint address and only
then the full continue-and-wait runs. If `rip - 1` is not a key, or its saved byte is
`None`, no step is issued and the controller goes straight to the ordinary
continue. -/
theorem claim_C1_step_over_protocol (s : S) (bps : List Nat) (s1 : S)
    (hinst : installLoop s bps = some s1)
    (hip0 : s1.regs.rip ≠ 0)
    (hip64 : s1.regs.rip < 2 ^ 64) :
    (∀ b w c rr rest,
        s1.bps (s1.regs.rip - 1) = some (some b) → b < 256 →
        s1.mem (align_addr_to_word (s1.regs.rip - 1)) = some w →
        s1.waits = (RawWait.exited c, rr) :: rest →
        ∃ s5, wakeAndWait s bps = (WaitRes.ok (Status.exited c), s5) ∧
          s5.regs.rip = s1.regs.rip - 1 ∧
          readMemByte s5 (s1.regs.rip - 1) = some b ∧
          s5.stepCount = s.stepCount + 1 ∧
          s5.contCount = s.contCount ∧
          s5.waits = rest) ∧
    (∀ b w g co rr rest,
        s1.bps (s1.regs.rip - 1) = some (some b) → b < 256 →
        s1.mem (align_addr_to_word (s1.regs.rip - 1)) = some w →
        s1.waits = (RawWait.signaled g co, rr) :: rest →
        ∃ s5, wakeAndWait s bps = (WaitRes.ok (Status.signaled g), s5) ∧
          s5.regs.rip = s1.regs.rip - 1 ∧
          readMemByte s5 (s1.regs.rip - 1) = some b ∧
          s5.stepCount = s.stepCount + 1 ∧
          s5.contCount = s.contCount ∧
          s5.waits = rest) ∧
    (∀ b w sig rr rest,
        s1.bps (s1.regs.rip - 1) = some (some b) → b < 256 →
        s1.mem (align_addr_to_word (s1.regs.rip - 1)) = some w →
        s1.waits = (RawWait.stopped sig, rr) :: rest →
        ∃ s6, wakeAndWait s bps = simCont s6 ∧
          readMemByte s6 (s1.regs.rip - 1) = some 0xcc ∧
          s6.stepCount = s.stepCount + 1 ∧
          s6.contCount = s.contCount ∧
          s6.waits = rest) ∧
    ((s1.bps (s1.regs.rip - 1) = none ∨ s1.bps (s1.regs.rip - 1) = some none) →
        wakeAndWait s bps = simCont s1 ∧ s1.stepCount = s.stepCount) := by
  have hfields := installLoop_fields bps s s1 hinst
  have ha : s1.regs.rip - 1 < 2 ^ 64 := by omega
  have hk : s1.regs.rip - 1 - align_addr_to_word (s1.regs.rip - 1) < 8 :=
    byte_offset_lt _ ha
  refine ⟨?_, ?_, ?_, ?_⟩
  · intro b w c rr rest harm hb hm hwaits
    refine ⟨{ s1 with
        mem := fun x => if x = align_addr_to_word (s1.regs.rip - 1) then
            some (wbUpdated w (s1.regs.rip - 1 - align_addr_to_word (s1.regs.rip - 1)) b)
          else s1.mem x,
        regs := { s1.regs with rip := s1.regs.rip - 1 },
        stepCount := s1.stepCount + 1,
        waits := rest }, ?_, rfl, ?_, ?_, ?_, rfl⟩
    · unfold wakeAndWait
      rw [hinst]
      simp only [if_neg hip0, harm, stepOverTail,
        simWriteByte_eq s1 (s1.regs.rip - 1) b w hm, hwaits, simWait, inferiorWait]
    · simp [readMemByte, wbOrig_wbUpdated w _ b hk hb]
    · simp only [hfields.2.2.1]
    · exact hfields.2.2.2
  · intro b w g co rr rest harm hb hm hwaits
    refine ⟨{ s1 with
        mem := fun x => if x = align_addr_to_word (s1.regs.rip - 1) then
            some (wbUpdated w (s1.regs.rip - 1 - align_addr_to_word (s1.regs.rip - 1)) b)
          else s1.mem x,
        regs := { s1.regs with rip := s1.regs.rip - 1 },
        stepCount := s1.stepCount + 1,
        waits := rest }, ?_, rfl, ?_, ?_, ?_, rfl⟩
    · unfold wakeAndWait
      rw [hinst]
      simp only [if_neg hip0, harm, stepOverTail,
        simWriteByte_eq s1 (s1.regs.rip - 1) b w hm, hwaits, simWait, inferiorWait]
    · simp [readMemByte, wbOrig_wbUpdated w _ b hk hb]
    · simp only [hfields.2.2.1]
    · exact hfields.2.2.2
  · intro b w sig rr rest harm hb hm hwaits
    refine ⟨{ s1 with
        mem := fun x => if x = align_addr_to_word (s1.regs.rip - 1) then
            some (wbUpdated
              (wbUpdated w (s1.regs.rip - 1 - align_addr_to_word (s1.regs.rip - 1)) b)
              (s1.regs.rip - 1 - align_addr_to_word (s1.regs.rip - 1)) 0xcc)
          else (fun y => if y = align_addr_to_word (s1.regs.rip - 1) then
              some (wbUpdated w
                (s1.regs.rip - 1 - align_addr_to_word (s1.regs.rip - 1)) b)
            else s1.mem y) x,
        regs := rr,
        stepCount := s1.stepCount + 1,
        waits := rest }, ?_, ?_, ?_, ?_, rfl⟩
    · unfold wakeAndWait
      rw [hinst]
      simp only [if_neg hip0, harm, stepOverTail,
        simWriteByte_eq s1 (s1.regs.rip - 1) b w hm, hwaits, simWait, inferiorWait]
      rw [simWriteByte_eq _ (s1.regs.rip - 1)
        0xcc (wbUpdated w (s1.regs.rip - 1 - align_addr_to_word (s1.regs.rip - 1)) b)
        (by simp)]
    · simp [readMemByte, wbOrig_wbUpdated
        (wbUpdated w (s1.regs.rip - 1 - align_addr_to_word (s1.regs.rip - 1)) b)
        _ 0xcc hk (by norm_num)]
    · simp only [hfields.2.2.1]
    · exact hfields.2.2.2
  · intro hdis
    refine ⟨?_, hfields.2.2.1⟩
    unfold wakeAndWait
    rw [hinst]
    cases hdis with
    | inl h => simp only [if_neg hip0, h]
    | inr h => simp only [if_neg hip0, h]

/-- Concrete state for the C1 witness: the inferior sits at `rip = 4097`, one byte
after an armed breakpoint at `4096` whose saved original byte is `0x55`; the next
wait event is a normal exit with code 7. -/
def c1s : S :=
  mkS (oneWordMem 4096 0xcc) ⟨4097, 0⟩ [(RawWait.exited 7, ⟨0, 0⟩)]
    (fun k => if k = 4096 then some (some 0x55) else none)

/-- Closed witness for C1: on the concrete armed state the resume returns the exit
status from the single step, restores the saved byte and issues exactly one step
and no continue. -/
theorem claim_C1_step_over_protocol_witness :
    (wakeAndWait c1s []).1 = WaitRes.ok (Status.exited 7) ∧
    readMemByte (wakeAndWait c1s []).2 4096 = some 0x55 ∧
    (wakeAndWait c1s []).2.stepCount = 1 ∧
    (wakeAndWait c1s []).2.contCount = 0 := by
  obtain ⟨s5, heq, -, hbyte, hstep, hcont, -⟩ :=
    (claim_C1_step_over_protocol c1s [] c1s rfl (by decide) (by decide)).1
      0x55 0xcc 7 ⟨0, 0⟩ [] rfl (by norm_num) rfl rfl
  rw [heq]
  exact ⟨rfl, hbyte, hstep, hcont⟩

-- ### C2: re-installation overwrites the saved original byte

/-- Failing input for C2: breakpoint `4096` is armed (trap byte `0xcc` is live in
memory) and the table still holds the true original byte `0x55`; the inferior is
stopped just past the breakpoint and the next two events are a stop and an exit. -/
def c2s : S :=
  mkS (oneWordMem 4096 0xcc) ⟨4097, 0⟩
    [(RawWait.stopped 5, ⟨4096, 0⟩), (RawWait.exited 0, ⟨0, 0⟩)]
    (fun k => if k = 4096 then some (some 0x55) else none)

/-- C2 fails on the code: the re-installation loop at the start of resume re-patches
an already-armed breakpoint, reads back the in-memory trap byte `0xcc` as the
"original" byte, and overwrites the saved entry `Some 0x55` with the poisoned
`Some 0xcc`, both after the loop itself and in the state a full resume returns. -/
theorem claim_C2_reinstall_overwrites_saved_byte :
    c2s.bps 4096 = some (some 0x55) ∧
    (installLoop c2s [4096]).map (fun t => t.bps 4096) = some (some (some 0xcc)) ∧
    (wakeAndWait c2s [4096]).2.bps 4096 = some (some 0xcc) :=
  ⟨rfl, rfl, rfl⟩

-- ### Memory-bound and installation lemmas

/-- Every mapped word fits in 64 bits (true of everything `ptrace::read` returns). -/
def memBound (s : S) : Prop := ∀ x w, s.mem x = some w → w < 2 ^ 64

theorem simWriteByte_memBound (s s1 : S) (a v o : Nat) (ha : a < 2 ^ 64) (hv : v < 256)
    (hB : memBound s) (h : simWriteByte s a v = some (o, s1)) : memBound s1 := by
  cases hmem : s.mem (align_addr_to_word a) with
  | none => rw [simWriteByte_none s a v hmem] at h; exact Option.noConfusion h
  | some w =>
      obtain ⟨-, hs1⟩ := simWriteByte_inv s s1 a v o w hmem h
      intro x u hx
      rw [hs1] at hx
      by_cases hxa : x = align_addr_to_word a
      · simp only [hxa, if_pos rfl] at hx
        rw [← Option.some.inj hx]
        exact wbUpdated_lt w _ v (hB _ _ hmem) (byte_offset_lt a ha) hv
      · simp only [if_neg hxa] at hx
        exact hB x u hx

theorem simWriteByte_domain (s s1 : S) (a v o : Nat)
    (h : simWriteByte s a v = some (o, s1)) :
    ∀ x, s1.mem x = none ↔ s.mem x = none := by
  cases hmem : s.mem (align_addr_to_word a) with
  | none => rw [simWriteByte_none s a v hmem] at h; exact Option.noConfusion h
  | some w =>
      obtain ⟨-, hs1⟩ := simWriteByte_inv s s1 a v o w hmem h
      intro x
      rw [hs1]
      by_cases hxa : x = align_addr_to_word a
      · simp only [hxa, if_pos rfl, hmem]
        constructor <;> intro hc <;> exact absurd hc (by simp)
      · simp only [if_neg hxa]

theorem readMemByte_eq_of_mem (s : S) (x w : Nat)
    (h : s.mem (align_addr_to_word x) = some w) :
    readMemByte s x = some (wbOrig w (x - align_addr_to_word x)) := by
  simp only [readMemByte, h]

/-- The observable fact "breakpoint `a` is installed": its in-memory byte is the trap
byte and the table holds a saved byte for it. -/
def bpInstalled (s : S) (a : Nat) : Prop :=
  readMemByte s a = some 0xcc ∧ ∃ b, b < 256 ∧ s.bps a = some (some b)

theorem installBp_establishes (s s1 : S) (a : Nat) (ha : a < 2 ^ 64) (hB : memBound s)
    (h : installBp s a = some s1) : bpInstalled s1 a ∧ memBound s1 := by
  simp only [installBp] at h
  cases hsw : simWriteByte s a 0xcc with
  | none => rw [hsw] at h; exact absurd h (by simp)
  | some p =>
      obtain ⟨o, t⟩ := p
      rw [hsw] at h
      have hs1 : s1 = { t with bps := bpsInsert t.bps a (some o) } := (Option.some.inj h).symm
      cases hmem : s.mem (align_addr_to_word a) with
      | none => rw [simWriteByte_none s a 0xcc hmem] at hsw; exact Option.noConfusion hsw
      | some w =>
          obtain ⟨ho, ht⟩ := simWriteByte_inv s t a 0xcc o w hmem hsw
          have hBt : memBound t := simWriteByte_memBound s t a 0xcc o ha (by norm_num) hB hsw
          have hs1m : s1.mem = t.mem := by rw [hs1]
          have htm : t.mem = fun x =>
              if x = align_addr_to_word a then
                some (wbUpdated w (a - align_addr_to_word a) 0xcc)
              else s.mem x := by rw [ht]
          refine ⟨⟨?_, o, ?_, ?_⟩, ?_⟩
          · have hmem1 : s1.mem (align_addr_to_word a) =
                some (wbUpdated w (a - align_addr_to_word a) 0xcc) := by
              rw [hs1m, htm]
              simp
            rw [readMemByte_eq_of_mem s1 a _ hmem1,
              wbOrig_wbUpdated w _ 0xcc (byte_offset_lt a ha) (by norm_num)]
          · rw [ho]; exact wbOrig_lt w _
          · rw [hs1]; simp [bpsInsert]
          · intro x u hx
            rw [hs1] at hx
            exact hBt x u hx

theorem installBp_preserves (s s1 : S) (a bp : Nat) (ha : a < 2 ^ 64) (hbp : bp < 2 ^ 64)
    (hB : memBound s) (hP : bpInstalled s bp) (h : installBp s a = some s1) :
    bpInstalled s1 bp := by
  by_cases hab : a = bp
  · subst hab
    exact (installBp_establishes s s1 a ha hB h).1
  · simp only [installBp] at h
    cases hsw : simWriteByte s a 0xcc with
    | none => rw [hsw] at h; exact absurd h (by simp)
    | some p =>
        obtain ⟨o, t⟩ := p
        rw [hsw] at h
        have hs1 : s1 = { t with bps := bpsInsert t.bps a (some o) } := (Option.some.inj h).symm
        cases hmem : s.mem (align_addr_to_word a) with
        | none => rw [simWriteByte_none s a 0xcc hmem] at hsw; exact Option.noConfusion hsw
        | some w =>
            obtain ⟨-, ht⟩ := simWriteByte_inv s t a 0xcc o w hmem hsw
            obtain ⟨hbyte, b, hblt, hentry⟩ := hP
            have hs1m : s1.mem = t.mem := by rw [hs1]
            have htm : t.mem = fun x =>
                if x = align_addr_to_word a then
                  some (wbUpdated w (a - align_addr_to_word a) 0xcc)
                else s.mem x := by rw [ht]
            refine ⟨?_, b, hblt, ?_⟩
            · by_cases halx : align_addr_to_word bp = align_addr_to_word a
              · have hsmem : s.mem (align_addr_to_word bp) = some w := by
                  rw [halx]; exact hmem
                have hbyte2 : wbOrig w (bp - align_addr_to_word bp) = 0xcc :=
                  Option.some.inj ((readMemByte_eq_of_mem s bp w hsmem).symm.trans hbyte)
                have hoff : bp - align_addr_to_word bp ≠ a - align_addr_to_word a := by
                  intro hcon
                  rw [byte_offset_eq a ha, byte_offset_eq bp hbp] at hcon
                  rw [align_addr_to_word_eq a ha, align_addr_to_word_eq bp hbp] at halx
                  omega
                have hmem1 : s1.mem (align_addr_to_word bp) =
                    some (wbUpdated w (a - align_addr_to_word a) 0xcc) := by
                  rw [hs1m, htm, halx]
                  simp
                rw [readMemByte_eq_of_mem s1 bp _ hmem1,
                  wbOrig_wbUpdated_other w _ 0xcc _ (hB _ _ hmem) (byte_offset_lt a ha)
                    (by norm_num) (byte_offset_lt bp hbp) hoff, hbyte2]
              · have hmem1 : s1.mem (align_addr_to_word bp) = s.mem (align_addr_to_word bp) := by
                  rw [hs1m, htm]
                  simp [if_neg halx]
                simp only [readMemByte, hmem1]
                simp only [readMemByte] at hbyte
                exact hbyte
            · rw [hs1]
              have hbps : t.bps = s.bps := (simWriteByte_fields s t a 0xcc o hsw).2.2.1
              simp only [bpsInsert, if_neg (Ne.symm hab), hbps]
              exact hentry

theorem installLoop_preserves (l : List Nat) : ∀ s s2 bp, (∀ a ∈ l, a < 2 ^ 64) →
    bp < 2 ^ 64 → memBound s → bpInstalled s bp → installLoop s l = some s2 →
    bpInstalled s2 bp := by
  induction l with
  | nil =>
      intro s s2 bp _ _ _ hP h
      simp only [installLoop] at h
      rw [← Option.some.inj h]
      exact hP
  | cons a rest ih =>
      intro s s2 bp hlt hbp hB hP h
      simp only [installLoop] at h
      cases hbpi : installBp s a with
      | none => rw [hbpi] at h; exact absurd h (by simp)
      | some t =>
          rw [hbpi] at h
          have ha : a < 2 ^ 64 := hlt a (List.mem_cons_self a rest)
          have hPt := installBp_preserves s t a bp ha hbp hB hP hbpi
          have hBt := (installBp_establishes s t a ha hB hbpi).2
          exact ih t s2 bp (fun x hx => hlt x (List.mem_cons_of_mem a hx)) hbp hBt hPt h

theorem installLoop_installs (l : List Nat) : ∀ s s2, (∀ a ∈ l, a < 2 ^ 64) →
    memBound s → installLoop s l = some s2 →
    memBound s2 ∧ ∀ a ∈ l, bpInstalled s2 a := by
  induction l with
  | nil =>
      intro s s2 _ hB h
      simp only [installLoop] at h
      rw [← Option.some.inj h]
      exact ⟨hB, by simp⟩
  | cons a rest ih =>
      intro s s2 hlt hB h
      simp only [installLoop] at h
      cases hbpi : installBp s a with
      | none => rw [hbpi] at h; exact absurd h (by simp)
      | some t =>
          rw [hbpi] at h
          have ha : a < 2 ^ 64 := hlt a (List.mem_cons_self a rest)
          obtain ⟨hPa, hBt⟩ := installBp_establishes s t a ha hB hbpi
          have hrest : ∀ x ∈ rest, x < 2 ^ 64 := fun x hx => hlt x (List.mem_cons_of_mem a hx)
          obtain ⟨hB2, hall⟩ := ih t s2 hrest hBt h
          refine ⟨hB2, ?_⟩
          intro x hx
          rcases List.mem_cons.mp hx with hxa | hxr
          · subst hxa
            exact installLoop_preserves rest t s2 x hrest ha hBt hPa h
          · exact hall x hxr

-- ### C9: the launch contract

/-- C9: launch returns no inferior exactly when the spawn fails or the first observed
wait event is not a stop; when the spawn succeeds, the first event is the initial
stop and the installation loop succeeds, launch returns the inferior whose state has
every requested breakpoint installed: the trap byte `0xcc` is live at each address
and the table records the returned original byte for it. -/
theorem claim_C9_launch_contract (spawnOk : Bool) (s0 : S) (l : List Nat) :
    (inferiorNew spawnOk s0 l = NewRes.noInferior ↔
      (spawnOk = false ∨
        ∀ sig r rest, s0.waits ≠ (RawWait.stopped sig, r) :: rest)) ∧
    (∀ sig r rest s2, spawnOk = true →
      s0.waits = (RawWait.stopped sig, r) :: rest →
      installLoop { s0 with waits := rest, regs := r, bps := fun _ => none } l = some s2 →
      (∀ a ∈ l, a < 2 ^ 64) → memBound s0 →
      inferiorNew spawnOk s0 l = NewRes.ok s2 ∧
        ∀ a ∈ l, readMemByte s2 a = some 0xcc ∧
          ∃ b, b < 256 ∧ s2.bps a = some (some b)) := by
  constructor
  · cases spawnOk with
    | false => simp [inferiorNew]
    | true =>
        cases hw : s0.waits with
        | nil =>
            simp only [inferiorNew, hw, if_pos rfl]
            constructor
            · intro _; right; intro sig r rest hcon; exact List.noConfusion hcon
            · intro _; rfl
        | cons p rest =>
            obtain ⟨w, r⟩ := p
            cases w with
            | stopped sig =>
                simp only [inferiorNew, hw, if_pos rfl]
                cases hil : installLoop
                    { s0 with waits := rest, regs := r, bps := fun _ => none } l with
                | none =>
                    simp only
                    constructor
                    · intro hcon; exact NewRes.noConfusion hcon
                    · rintro (hcon | hall)
                      · exact Bool.noConfusion hcon
                      · exact absurd rfl (hall sig r rest)
                | some s2 =>
                    simp only
                    constructor
                    · intro hcon; exact NewRes.noConfusion hcon
                    · rintro (hcon | hall)
                      · exact Bool.noConfusion hcon
                      · exact absurd rfl (hall sig r rest)
            | exited c =>
                simp only [inferiorNew, hw, if_pos rfl]
                constructor
                · intro _
                  right
                  intro sig r2 rest2 hcon
                  obtain ⟨h1, -⟩ := List.cons.inj hcon
                  exact RawWait.noConfusion (congrArg Prod.fst h1)
                · intro _; rfl
            | signaled sig co =>
                simp only [inferiorNew, hw, if_pos rfl]
                constructor
                · intro _
                  right
                  intro sig2 r2 rest2 hcon
                  obtain ⟨h1, -⟩ := List.cons.inj hcon
                  exact RawWait.noConfusion (congrArg Prod.fst h1)
                · intro _; rfl
            | other =>
                simp only [inferiorNew, hw, if_pos rfl]
                constructor
                · intro _
                  right
                  intro sig2 r2 rest2 hcon
                  obtain ⟨h1, -⟩ := List.cons.inj hcon
                  exact RawWait.noConfusion (congrArg Prod.fst h1)
                · intro _; rfl
  · intro sig r rest s2 hsp hw hil hlt hB
    subst hsp
    have hB1 : memBound { s0 with waits := rest, regs := r, bps := fun _ => none } :=
      fun x u hx => hB x u hx
    obtain ⟨-, hall⟩ := installLoop_installs l _ s2 hlt hB1 hil
    constructor
    · simp [inferiorNew, hw, hil]
    · intro a hal
      exact hall a hal

/-- Concrete launch scenario for the C9 witness: spawn succeeds, the initial stop is
observed, one breakpoint at `4096` over the word `0xab`. -/
def c9s0 : S := mkS (oneWordMem 4096 0xab) ⟨0, 0⟩ [(RawWait.stopped 5, ⟨100, 0⟩)]
  (fun _ => none)

/-- The inferior state the concrete C9 launch produces. -/
def c9s2 : S :=
  { c9s0 with
    mem := fun x => if x = 4096 then some 0xcc else c9s0.mem x,
    waits := [], regs := ⟨100, 0⟩,
    bps := fun k => if k = 4096 then some (some 0xab) else none }

/-- Closed witness for C9: the concrete launch returns the inferior with the
breakpoint installed and its trap byte live. -/
theorem claim_C9_launch_contract_witness :
    inferiorNew true c9s0 [4096] = NewRes.ok c9s2 ∧
    readMemByte c9s2 4096 = some 0xcc := by
  obtain ⟨hok, hall⟩ := (claim_C9_launch_contract true c9s0 [4096]).2 5 ⟨100, 0⟩ [] c9s2
    rfl rfl rfl
    (by intro a ha; rw [List.mem_singleton.mp ha]; norm_num)
    (by
      intro x u hx
      simp only [c9s0, mkS, oneWordMem] at hx
      by_cases hxa : x = 4096
      · rw [if_pos hxa] at hx; rw [← Option.some.inj hx]; norm_num
      · rw [if_neg hxa] at hx; exact absurd hx (by simp))
  exact ⟨hok, (hall 4096 (List.mem_singleton.mpr rfl)).1⟩

-- ### C10: the breakpoint map never holds a None value

/-- Every key of the breakpoint map of the inferior has a saved byte. -/
def bpsWellFormed (s : S) : Prop := ∀ a v, s.bps a = some v → ∃ b, v = some b

theorem simWait_bps (t : S) : ((simWait t).2).bps = t.bps := by
  unfold simWait
  cases t.waits with
  | nil => rfl
  | cons p rest =>
      obtain ⟨w, r⟩ := p
      cases w <;> rfl

theorem simCont_bps (t : S) : ((simCont t).2).bps = t.bps := simWait_bps _

theorem stepOverTail_bps (a : Nat) (s4 : S) : ((stepOverTail a s4).2).bps = s4.bps := by
  unfold stepOverTail
  rcases hsw : simWait s4 with ⟨res, s5⟩
  have h5 : s5.bps = s4.bps := by
    have h := simWait_bps s4
    rw [hsw] at h
    exact h
  cases res with
  | ok st =>
      cases st with
      | stopped sig ip =>
          simp only
          cases hw3 : simWriteByte s5 a 0xcc with
          | none =>
              simp only [hw3, simCont_bps]
              exact h5
          | some p =>
              obtain ⟨o, t⟩ := p
              simp only [hw3, simCont_bps]
              exact ((simWriteByte_fields s5 t a 0xcc o hw3).2.2.1).trans h5
      | exited c => simpa using h5
      | signaled g => simpa using h5
  | err => simpa using h5
  | panicked => simpa using h5

theorem wakeAndWait_bps_cases (s : S) (l : List Nat) :
    (wakeAndWait s l).2.bps = s.bps ∨
    ∃ s1, installLoop s l = some s1 ∧ (wakeAndWait s l).2.bps = s1.bps := by
  unfold wakeAndWait
  cases hil : installLoop s l with
  | none => left; rfl
  | some s1 =>
      right
      refine ⟨s1, rfl, ?_⟩
      by_cases h0 : s1.regs.rip = 0
      · simp [h0]
      · simp only [if_neg h0]
        cases harm : s1.bps (s1.regs.rip - 1) with
        | none => exact simCont_bps s1
        | some v =>
            cases v with
            | none => exact simCont_bps s1
            | some b =>
                simp only
                cases hw2 : simWriteByte s1 (s1.regs.rip - 1) b with
                | none =>
                    simp only [hw2, stepOverTail_bps]
                | some p =>
                    obtain ⟨o, t⟩ := p
                    simp only [hw2, stepOverTail_bps]
                    exact (simWriteByte_fields s1 t _ b o hw2).2.2.1

theorem installBp_wf (s s1 : S) (a : Nat) (hW : bpsWellFormed s)
    (h : installBp s a = some s1) : bpsWellFormed s1 := by
  simp only [installBp] at h
  cases hsw : simWriteByte s a 0xcc with
  | none => rw [hsw] at h; exact absurd h (by simp)
  | some p =>
      obtain ⟨o, t⟩ := p
      rw [hsw] at h
      have hbps : t.bps = s.bps := (simWriteByte_fields s t a 0xcc o hsw).2.2.1
      rw [← Option.some.inj h]
      intro x v hx
      simp only [bpsInsert] at hx
      by_cases hxa : x = a
      · rw [if_pos hxa] at hx
        exact ⟨o, (Option.some.inj hx).symm⟩
      · rw [if_neg hxa, hbps] at hx
        exact hW x v hx

theorem installLoop_wf (l : List Nat) : ∀ s s2 : S, bpsWellFormed s →
    installLoop s l = some s2 → bpsWellFormed s2 := by
  induction l with
  | nil =>
      intro s s2 hW h
      simp only [installLoop] at h
      rw [← Option.some.inj h]
      exact hW
  | cons a rest ih =>
      intro s s2 hW h
      simp only [installLoop] at h
      cases hbp : installBp s a with
      | none => rw [hbp] at h; exact absurd h (by simp)
      | some t =>
          rw [hbp] at h
          exact ih t s2 (installBp_wf s t a hW hbp) h

theorem set_breakpoint_eq_installBp (s : S) (a : Nat) :
    set_breakpoint s a = installBp s a := rfl

/-- C10: in every live inferior the breakpoint map only ever stores `Some` values:
the map produced by a successful launch is well-formed, and both a resume and a
`set_breakpoint` on a well-formed inferior keep it well-formed, because every
insertion pairs the address with the byte returned by the patching write. -/
theorem claim_C10_bps_never_none :
    (∀ spawnOk s0 l s2, inferiorNew spawnOk s0 l = NewRes.ok s2 → bpsWellFormed s2) ∧
    (∀ s l r s3, bpsWellFormed s → wakeAndWait s l = (r, s3) → bpsWellFormed s3) ∧
    (∀ s a s1, bpsWellFormed s → set_breakpoint s a = some s1 → bpsWellFormed s1) := by
  refine ⟨?_, ?_, ?_⟩
  · intro spawnOk s0 l s2 h
    unfold inferiorNew at h
    cases spawnOk with
    | false => simp at h
    | true =>
        cases hw : s0.waits with
        | nil => rw [hw] at h; simp at h
        | cons p rest =>
            obtain ⟨w, r⟩ := p
            rw [hw] at h
            cases w with
            | stopped sig =>
                simp only [if_pos rfl] at h
                cases hil : installLoop
                    { s0 with waits := rest, regs := r, bps := fun _ => none } l with
                | none => rw [hil] at h; simp at h
                | some s2x =>
                    rw [hil] at h
                    have hx : s2x = s2 := by
                      cases h
                      rfl
                    subst hx
                    exact installLoop_wf l _ s2x
                      (fun x v hx => Option.noConfusion hx) hil
            | exited c => simp at h
            | signaled sig co => simp at h
            | other => simp at h
  · intro s l r s3 hW h
    have hc := wakeAndWait_bps_cases s l
    rw [h] at hc
    rcases hc with hc | ⟨s1, hil, hc⟩
    · intro x v hx
      rw [hc] at hx
      exact hW x v hx
    · intro x v hx
      rw [hc] at hx
      exact installLoop_wf l s s1 hW hil x v hx
  · intro s a s1 hW h
    rw [set_breakpoint_eq_installBp] at h
    exact installBp_wf s s1 a hW h

/-- Concrete state for the C10 witness: empty table, one mapped word. -/
def c10s : S := mkS (oneWordMem 4096 0xab) ⟨0, 0⟩ [] (fun _ => none)

/-- The state after `set_breakpoint(4096)` on `c10s`. -/
def c10out : S :=
  { c10s with
    mem := fun x => if x = 4096 then some 0xcc else c10s.mem x,
    bps := fun k => if k = 4096 then some (some 0xab) else none }

/-- Closed witness for C10: a concrete `set_breakpoint` run keeps the table free of
`None` values. -/
theorem claim_C10_bps_never_none_witness : bpsWellFormed c10out :=
  claim_C10_bps_never_none.2.2 c10s 4096 c10out
    (fun _ _ hx => Option.noConfusion hx) rfl

-- ### C3: backtrace termination

/-- A concrete cyclic frame chain: the saved return address at `bp + 8 = 40` points
back to the current `ip = 16` and the saved base pointer at `bp = 32` points back to
`bp` itself. -/
def cycMem : Nat → Option Nat :=
  fun x => if x = 40 then some 16 else if x = 32 then some 32 else none

/-- Counterexample to C3: on a cyclic frame chain whose frames all resolve (to
function `"loop"`, never `"main"`), the backtrace walk never finishes, whatever
iteration budget it is given — the source loop has no iteration cap. -/
theorem claim_C3_counterexample_cyclic_chain_diverges :
    btDiverges (fun _ => some 7) (fun _ => some "loop") cycMem 16 32 := by
  intro fuel
  induction fuel with
  | zero =>
      intro acc
      exact ⟨acc, rfl⟩
  | succ n ih =>
      intro acc
      have hstep : backtraceGo (fun _ => some 7) (fun _ => some "loop") cycMem
            (n + 1) 16 32 acc
          = backtraceGo (fun _ => some 7) (fun _ => some "loop") cycMem
            n 16 32 (acc ++ [("loop", 7)]) := by
        simp [backtraceGo, cycMem]
      rw [hstep]
      exact ih (acc ++ [("loop", 7)])

/-- C3 as amended: the walk does stop, with the `"main"` frame as the last element
emitted, when the current frame resolves to `"main"`; it does abort with the frames
collected so far when a frame-chain memory read fails; but there is no defensive
iteration cap, and a cyclic chain whose frames all resolve and never name `"main"`
makes the walk run forever. -/
theorem claim_C3_backtrace_termination_behaviour
    (gl : Nat → Option Nat) (gf : Nat → Option String) (mem : Nat → Option Nat)
    (fuel ip bp : Nat) (acc : List (String × Nat)) :
    (∀ l, gl ip = some l → gf ip = some "main" →
      backtraceGo gl gf mem (fuel + 1) ip bp acc = BtRes.ok (acc ++ [("main", l)])) ∧
    (∀ l f, gl ip = some l → gf ip = some f → f ≠ "main" → mem (bp + 8) = none →
      backtraceGo gl gf mem (fuel + 1) ip bp acc = BtRes.errAfter (acc ++ [(f, l)])) ∧
    (∀ l f w, gl ip = some l → gf ip = some f → f ≠ "main" → mem (bp + 8) = some w →
      mem bp = none →
      backtraceGo gl gf mem (fuel + 1) ip bp acc = BtRes.errAfter (acc ++ [(f, l)])) ∧
    (∀ l f, gl ip = some l → gf ip = some f → f ≠ "main" →
      mem (bp + 8) = some ip → mem bp = some bp →
      btDiverges gl gf mem ip bp) := by
  refine ⟨?_, ?_, ?_, ?_⟩
  · intro l hl hf
    simp [backtraceGo, hl, hf]
  · intro l f hl hf hfm hm
    simp [backtraceGo, hl, hf, hfm, hm]
  · intro l f w hl hf hfm hm1 hm2
    simp [backtraceGo, hl, hf, hfm, hm1, hm2]
  · intro l f hl hf hfm hm1 hm2
    intro fuel2
    induction fuel2 with
    | zero =>
        intro acc2
        exact ⟨acc2, rfl⟩
    | succ n ih =>
        intro acc2
        have hstep : backtraceGo gl gf mem (n + 1) ip bp acc2
            = backtraceGo gl gf mem n ip bp (acc2 ++ [(f, l)]) := by
          simp [backtraceGo, hl, hf, hfm, hm1, hm2]
        rw [hstep]
        exact ih (acc2 ++ [(f, l)])

/-- Closed witness for the amended C3: a one-frame chain resolving to `"main"` stops
at once with that frame as the only element. -/
theorem claim_C3_backtrace_termination_behaviour_witness :
    backtraceGo (fun _ => some 3) (fun _ => some "main") (fun _ => none) 1 0 0 [] =
      BtRes.ok [("main", 3)] :=
  (claim_C3_backtrace_termination_behaviour (fun _ => some 3) (fun _ => some "main")
    (fun _ => none) 0 0 0 []).1 3 rfl rfl

-- ### C4: symbol misses during the backtrace walk

/-- Counterexample to C4: a symbol-provider miss (a `none` from the line lookup, or
from the function lookup) makes the walk panic via `.unwrap()` instead of proceeding
with a placeholder. -/
theorem claim_C4_counterexample_symbol_miss_aborts :
    backtraceGo (fun _ => none) (fun _ => some "f") (fun _ => none) 1 0 0 [] =
      BtRes.panicked [] ∧
    backtraceGo (fun _ => some 3) (fun _ => none) (fun _ => none) 1 0 0 [] =
      BtRes.panicked [] :=
  ⟨rfl, rfl⟩

/-- C4 as amended: a symbol-provider miss on the current frame address is fatal: the
walk panics (the Rust `.unwrap()` aborts the session), emitting no placeholder frame
and keeping only the frames already printed. -/
theorem claim_C4_symbol_miss_panics (gl : Nat → Option Nat) (gf : Nat → Option String)
    (mem : Nat → Option Nat) (fuel ip bp : Nat) (acc : List (String × Nat)) :
    (gl ip = none → backtraceGo gl gf mem (fuel + 1) ip bp acc = BtRes.panicked acc) ∧
    (∀ l, gl ip = some l → gf ip = none →
      backtraceGo gl gf mem (fuel + 1) ip bp acc = BtRes.panicked acc) := by
  constructor
  · intro h
    simp [backtraceGo, h]
  · intro l hl hf
    simp [backtraceGo, hl, hf]

/-- Closed witness for the amended C4 at a distinct concrete input. -/
theorem claim_C4_symbol_miss_panics_witness :
    backtraceGo (fun _ => none) (fun _ => some "g") (fun _ => some 0) 3 5 6 [] =
      BtRes.panicked [] :=
  (claim_C4_symbol_miss_panics (fun _ => none) (fun _ => some "g") (fun _ => some 0)
    2 5 6 []).1 rfl

-- ### C5: breakpoint-patch failures

theorem installBp_none_of_unmapped (s : S) (a : Nat)
    (h : s.mem (align_addr_to_word a) = none) : installBp s a = none := by
  simp only [installBp, simWriteByte_none s a 0xcc h]

theorem installBp_domain (s s1 : S) (a : Nat) (h : installBp s a = some s1) :
    ∀ x, s1.mem x = none ↔ s.mem x = none := by
  simp only [installBp] at h
  cases hsw : simWriteByte s a 0xcc with
  | none => rw [hsw] at h; exact absurd h (by simp)
  | some p =>
      obtain ⟨o, t⟩ := p
      rw [hsw] at h
      intro x
      have hm := simWriteByte_domain s t a 0xcc o hsw x
      rw [← Option.some.inj h]
      exact hm

theorem installLoop_none_of_unmapped (l : List Nat) : ∀ (s : S) (a : Nat), a ∈ l →
    s.mem (align_addr_to_word a) = none → installLoop s l = none := by
  induction l with
  | nil =>
      intro s a ha
      exact absurd ha (List.not_mem_nil a)
  | cons hd tl ih =>
      intro s a ha hm
      simp only [installLoop]
      rcases List.mem_cons.mp ha with hah | hat
      · subst hah
        rw [installBp_none_of_unmapped s a hm]
      · cases hbp : installBp s hd with
        | none => simp only [hbp]
        | some t =>
            simp only [hbp]
            exact ih t a hat ((installBp_domain s t hd hbp _).mpr hm)

/-- Counterexample input for C5: no memory is mapped, so every breakpoint patch
fails. -/
def c5s : S := mkS (fun _ => none) ⟨0, 0⟩ [(RawWait.stopped 5, ⟨0, 0⟩)] (fun _ => none)

/-- Counterexample to C5: a `write_byte` failure while installing a breakpoint is
not surfaced as a recoverable error — both the resume-time loop and the launch-time
loop hit the `expect`, which panics and terminates the program. -/
theorem claim_C5_counterexample_patch_failure_terminates :
    wakeAndWait c5s [4096] = (WaitRes.panicked, c5s) ∧
    inferiorNew true c5s [4096] = NewRes.panicked :=
  ⟨rfl, rfl⟩

/-- C5 as amended: a memory-access failure while patching a breakpoint, at launch or
at resume, panics through `expect("Failed to set breakpoint ...")`: it terminates
the program rather than aborting only the one installation. -/
theorem claim_C5_patch_failure_panics (s : S) (l : List Nat) (a : Nat)
    (hmem : s.mem (align_addr_to_word a) = none) (hal : a ∈ l) :
    wakeAndWait s l = (WaitRes.panicked, s) ∧
    (∀ sig r rest, s.waits = (RawWait.stopped sig, r) :: rest →
      inferiorNew true s l = NewRes.panicked) := by
  have hil : installLoop s l = none := installLoop_none_of_unmapped l s a hal hmem
  constructor
  · unfold wakeAndWait
    simp only [hil]
  · intro sig r rest hw
    simp [inferiorNew, hw,
      installLoop_none_of_unmapped l
        { s with waits := rest, regs := r, bps := fun _ => none } a hal hmem]

/-- Closed witness for the amended C5 at a distinct concrete address. -/
theorem claim_C5_patch_failure_panics_witness :
    wakeAndWait c5s [8192] = (WaitRes.panicked, c5s) ∧
    inferiorNew true c5s [8192] = NewRes.panicked := by
  have h := claim_C5_patch_failure_panics c5s [8192] 8192 rfl
    (List.mem_singleton.mpr rfl)
  exact ⟨h.1, h.2 5 ⟨0, 0⟩ [] rfl⟩

end Deet
